import Mathlib

/-!
Verification of `src/samples/data_processor.cpp`.

The program is a single class `DataProcessor` owning a `std::vector<int> data`,
with four methods: `addData` (push_back), `sortData` (`std::sort` ascending),
`printData` (each element then a space to stdout, then `std::endl`) and
`getSum` (accumulates into an `int`, i.e. a 32-bit signed integer with
wrap-around modelled for overflow), plus a `main` driver that appends
5, 2, 8, 1, prints, sorts, prints, and prints the sum.

State is modelled as `List Int`: the vector contents in order.  Observer
methods are modelled as returning a pair (result, state after the call), so
that their (absence of) effect on the state is part of the model.
-/

namespace DataProcessor

/-- Wrap-around reduction of an integer into the signed 32-bit range
`[-2147483648, 2147483648)`, i.e. two's-complement `int` semantics.
`2147483648 = 2^31`, `4294967296 = 2^32`. -/
def int32wrap (x : Int) : Int := (x + 2147483648) % 4294967296 - 2147483648

/-- `addData(int value) { data.push_back(value); }` -/
def addData (data : List Int) (value : Int) : List Int := data ++ [value]

/-- `sortData() { std::sort(data.begin(), data.end()); }` — ascending
comparison sort; modelled by insertion sort with `≤`. -/
def sortData (data : List Int) : List Int := List.insertionSort (· ≤ ·) data

/-- `printData()`: `for (v : data) cout << v << " "; cout << endl;`.
Returns the text written to stdout together with the state after the call. -/
def printData (data : List Int) : String × List Int :=
  (data.foldl (fun out v => out ++ toString v ++ " ") "" ++ "\n", data)

/-- `getSum()`: `int sum = 0; for (v : data) sum += v; return sum;`.
Each `int` addition wraps.  Returns the result with the state after the call. -/
def getSum (data : List Int) : Int × List Int :=
  (data.foldl (fun sum v => int32wrap (sum + v)) 0, data)

/-- One method call on the aggregator. -/
inductive Op where
  | add (v : Int)
  | sort
  | print
  | sum

/-- Effect of one method call on the stored sequence. -/
def applyOp (data : List Int) : Op → List Int
  | .add v => addData data v
  | .sort => sortData data
  | .print => (printData data).2
  | .sum => (getSum data).2

/-- State of the sequence after a call history, starting from a freshly
constructed aggregator (empty vector). -/
def execState (ops : List Op) : List Int := ops.foldl applyOp []

/-- Values appended by a call history, in the order they were appended. -/
def appendedValues (ops : List Op) : List Int :=
  ops.filterMap fun op => match op with | .add v => some v | _ => none

/-- Text emitted by the `printData` loop body: each element in decimal form
followed by a space, in list order. -/
def renderBody : List Int → String
  | [] => ""
  | v :: t => toString v ++ " " ++ renderBody t

/-- Strings joined with a single space between consecutive elements
(the spec's "elements separated by a single space"). -/
def sepBySpace : List String → String
  | [] => ""
  | [x] => x
  | x :: xs => x ++ " " ++ sepBySpace xs

theorem int32wrap_add_left (a b : Int) :
    int32wrap (int32wrap a + b) = int32wrap (a + b) := by
  unfold int32wrap
  have h1 : (a + 2147483648) % 4294967296 - 2147483648 + b + 2147483648
      = (a + 2147483648) % 4294967296 + b := by ring
  rw [h1, Int.emod_add_emod]
  have h2 : a + 2147483648 + b = a + b + 2147483648 := by ring
  rw [h2]

theorem int32wrap_eq_self {x : Int} (h1 : -2147483648 ≤ x) (h2 : x < 2147483648) :
    int32wrap x = x := by
  unfold int32wrap
  rw [Int.emod_eq_of_lt (by linarith) (by linarith)]
  ring

theorem int32wrap_emod (x : Int) : int32wrap x % 4294967296 = x % 4294967296 := by
  unfold int32wrap
  have h1 : (x + 2147483648) % 4294967296 - 2147483648
      = (x + 2147483648) % 4294967296 + -2147483648 := by ring
  rw [h1, Int.emod_add_emod]
  have h2 : x + 2147483648 + -2147483648 = x := by ring
  rw [h2]

theorem int32wrap_lb (x : Int) : -2147483648 ≤ int32wrap x := by
  have h := Int.emod_nonneg (x + 2147483648) (b := 4294967296) (by norm_num)
  unfold int32wrap
  linarith

theorem int32wrap_ub (x : Int) : int32wrap x < 2147483648 := by
  have h := Int.emod_lt_of_pos (x + 2147483648) (b := 4294967296) (by norm_num)
  unfold int32wrap
  linarith

theorem foldl_wrapAdd (l : List Int) : ∀ a : Int,
    l.foldl (fun s v => int32wrap (s + v)) (int32wrap a) = int32wrap (a + l.sum) := by
  induction l with
  | nil => intro a; simp
  | cons v t ih =>
    intro a
    simp only [List.foldl_cons]
    rw [int32wrap_add_left, ih (a + v)]
    have h : a + v + t.sum = a + (v :: t).sum := by rw [List.sum_cons]; ring
    rw [h]

theorem getSum_fst (l : List Int) : (getSum l).1 = int32wrap l.sum := by
  have h0 : int32wrap 0 = 0 := by decide
  have h := foldl_wrapAdd l 0
  rw [h0] at h
  simpa [getSum] using h

theorem self_mem_scanl (f : Int → Int → Int) (b : Int) (l : List Int) :
    b ∈ List.scanl f b l := by
  cases l <;> simp [List.scanl]

theorem foldl_wrapAdd_of_inRange (l : List Int) : ∀ a : Int,
    (∀ x ∈ List.scanl (· + ·) a l, -2147483648 ≤ x ∧ x < 2147483648) →
    l.foldl (fun s v => int32wrap (s + v)) a = a + l.sum := by
  induction l with
  | nil => intro a _; simp
  | cons v t ih =>
    intro a h
    have hmem : ∀ x ∈ List.scanl (· + ·) (a + v) t, -2147483648 ≤ x ∧ x < 2147483648 := by
      intro x hx
      exact h x (by simp [List.scanl_cons, hx])
    have hav : -2147483648 ≤ a + v ∧ a + v < 2147483648 :=
      hmem (a + v) (self_mem_scanl _ (a + v) t)
    simp only [List.foldl_cons]
    rw [int32wrap_eq_self hav.1 hav.2, ih (a + v) hmem, List.sum_cons]
    ring

theorem sortData_perm (l : List Int) : (sortData l).Perm l :=
  List.perm_insertionSort _ l

theorem sortData_sorted (l : List Int) : List.Sorted (· ≤ ·) (sortData l) :=
  List.sorted_insertionSort _ l

theorem foldl_render (l : List Int) : ∀ out : String,
    l.foldl (fun o v => o ++ toString v ++ " ") out = out ++ renderBody l := by
  induction l with
  | nil =>
    intro out
    simp [renderBody]
  | cons v t ih =>
    intro out
    simp only [List.foldl_cons, renderBody]
    rw [ih]
    simp [String.append_assoc]

theorem foldl_addData (vs : List Int) : ∀ s : List Int, vs.foldl addData s = s ++ vs := by
  induction vs with
  | nil => intro s; simp
  | cons v t ih =>
    intro s
    simp only [List.foldl_cons]
    rw [ih]
    simp [addData]

theorem renderBody_eq_sepBySpace (l : List Int) :
    renderBody l = sepBySpace (l.map toString) ++ (if l.isEmpty then "" else " ") := by
  induction l with
  | nil => simp [renderBody, sepBySpace]
  | cons v t ih =>
    cases t with
    | nil => simp [renderBody, sepBySpace]
    | cons w u =>
      have hne : ((w :: u : List Int).isEmpty = false) := rfl
      simp only [renderBody, List.map_cons, sepBySpace, List.isEmpty_cons, if_false] at ih ⊢
      rw [ih]
      simp [String.append_assoc]

theorem foldl_applyOp_perm (ops : List Op) : ∀ s : List Int,
    (List.foldl applyOp s ops).Perm (s ++ appendedValues ops) := by
  induction ops with
  | nil => intro s; simp [appendedValues]
  | cons op t ih =>
    intro s
    cases op with
    | add v =>
      simp only [List.foldl_cons]
      have h3 : appendedValues (Op.add v :: t) = v :: appendedValues t := rfl
      rw [h3]
      have h1 := ih (s ++ [v])
      have h2 : (s ++ [v]) ++ appendedValues t = s ++ v :: appendedValues t := by simp
      rw [h2] at h1
      exact h1
    | sort =>
      simp only [List.foldl_cons]
      have h3 : appendedValues (Op.sort :: t) = appendedValues t := rfl
      rw [h3]
      exact (ih (sortData s)).trans ((sortData_perm s).append_right _)
    | print =>
      simp only [List.foldl_cons]
      have h3 : appendedValues (Op.print :: t) = appendedValues t := rfl
      rw [h3]
      exact ih s
    | sum =>
      simp only [List.foldl_cons]
      have h3 : appendedValues (Op.sum :: t) = appendedValues t := rfl
      rw [h3]
      exact ih s

/-- C1: `getSum` returns 0 on the empty sequence, and returns the arithmetic
sum of all appended values whenever every partial sum of the accumulation
stays in the signed 32-bit range (amended: the original unconditional claim
fails under `int` wrap-around). -/
theorem getSum_eq_sum_of_no_overflow :
    (getSum ([] : List Int)).1 = 0 ∧
    ∀ l : List Int,
      (∀ x ∈ List.scanl (· + ·) 0 l, -2147483648 ≤ x ∧ x < 2147483648) →
      (getSum l).1 = l.sum := by
  refine ⟨rfl, fun l h => ?_⟩
  have := foldl_wrapAdd_of_inRange l 0 h
  simpa [getSum] using this

/-- C1 witness: the amended theorem applied to the history 5, 2, 8, 1. -/
theorem getSum_eq_sum_of_no_overflow_witness :
    (getSum [5, 2, 8, 1]).1 = ([5, 2, 8, 1] : List Int).sum :=
  getSum_eq_sum_of_no_overflow.2 [5, 2, 8, 1] (by decide)

/-- C1 counterexample: appending 2147483647 and then 1 (both representable
`int` values) makes the `int` accumulator wrap, so `getSum` does not return
the arithmetic sum of the appended values. -/
theorem getSum_overflow_counterexample :
    (getSum [2147483647, 1]).1 ≠ ([2147483647, 1] : List Int).sum := by
  decide

/-- C2: after `sortData`, every adjacent pair (a, b) of the stored sequence —
the order in which `printData` emits — satisfies a ≤ b. -/
theorem sortData_chain_le (s : List Int) : List.Chain' (· ≤ ·) (sortData s) :=
  List.Pairwise.chain' (sortData_sorted s)

/-- C3: in the `main` scenario (append 5, 2, 8, 1 to a fresh aggregator),
`printData` emits "5 2 8 1 " and a line break; after `sortData` it emits
"1 2 5 8 " and a line break; `getSum` returns 16 before and after the sort. -/
theorem main_scenario :
    (printData (addData (addData (addData (addData [] 5) 2) 8) 1)).1 = "5 2 8 1 \n" ∧
    (printData (sortData (addData (addData (addData (addData [] 5) 2) 8) 1))).1
      = "1 2 5 8 \n" ∧
    (getSum (addData (addData (addData (addData [] 5) 2) 8) 1)).1 = 16 ∧
    (getSum (sortData (addData (addData (addData (addData [] 5) 2) 8) 1))).1 = 16 := by
  refine ⟨rfl, rfl, by decide, by decide⟩

/-- C4: a fresh aggregator holds the empty sequence, and after any call
history the stored sequence is a permutation of (holds exactly the multiset
of) the values appended by that history. -/
theorem execState_perm_appendedValues :
    execState [] = [] ∧
    ∀ ops : List Op, (execState ops).Perm (appendedValues ops) := by
  refine ⟨rfl, fun ops => ?_⟩
  have h := foldl_applyOp_perm ops []
  simpa [execState] using h

/-- C5: `getSum` returns the same value before and after `sortData`. -/
theorem getSum_sortData (s : List Int) : (getSum (sortData s)).1 = (getSum s).1 := by
  rw [getSum_fst, getSum_fst, (sortData_perm s).sum_eq]

/-- C6: after appending any sequence of values to a fresh aggregator (and
before any sort), `printData` emits exactly those values in the order
appended, each in decimal form followed by a space, then the line break. -/
theorem printData_after_appends (vs : List Int) :
    (printData (vs.foldl addData [])).1 = renderBody vs ++ "\n" := by
  rw [foldl_addData vs [], List.nil_append]
  show (printData vs).1 = renderBody vs ++ "\n"
  simp only [printData]
  rw [foldl_render vs ""]
  simp

/-- C7: `printData` emits the elements' decimal forms separated by single
spaces (with the loop's trailing space after the last element) followed by
one line break, and emits just the line break on the empty sequence. -/
theorem printData_format :
    (∀ s : List Int,
      (printData s).1
        = sepBySpace (s.map toString) ++ (if s.isEmpty then "" else " ") ++ "\n") ∧
    (printData ([] : List Int)).1 = "\n" := by
  have hmain : ∀ s : List Int,
      (printData s).1
        = sepBySpace (s.map toString) ++ (if s.isEmpty then "" else " ") ++ "\n" := by
    intro s
    simp only [printData]
    rw [foldl_render s "", renderBody_eq_sepBySpace]
    simp [String.append_assoc]
  exact ⟨hmain, by rw [hmain []]; rfl⟩

/-- C8: `sortData` is idempotent, and is a no-op on an empty or
single-element sequence. -/
theorem sortData_idempotent :
    (∀ s : List Int, sortData (sortData s) = sortData s) ∧
    sortData ([] : List Int) = [] ∧
    ∀ a : Int, sortData [a] = [a] := by
  refine ⟨fun s => ?_, rfl, fun a => rfl⟩
  exact List.Sorted.insertionSort_eq (sortData_sorted s)

/-- C9: `printData` and `getSum` are pure observers: each leaves the stored
sequence unchanged, and inserting either call anywhere in a call history does
not change the final state. -/
theorem observers_preserve_state :
    (∀ s : List Int, (printData s).2 = s ∧ (getSum s).2 = s) ∧
    ∀ ops₁ ops₂ : List Op,
      execState (ops₁ ++ Op.print :: ops₂) = execState (ops₁ ++ ops₂) ∧
      execState (ops₁ ++ Op.sum :: ops₂) = execState (ops₁ ++ ops₂) := by
  refine ⟨fun s => ⟨rfl, rfl⟩, fun ops₁ ops₂ => ?_⟩
  constructor <;>
    simp [execState, List.foldl_append, applyOp, printData, getSum]

/-- C10: `getSum` accumulates in a wrap-around 32-bit signed integer: its
result is congruent to the arithmetic sum modulo 2^32, lies in the signed
32-bit range, and equals the arithmetic sum whenever every partial sum of
the accumulation lies in that range (amended: the range condition is
sufficient, not necessary). -/
theorem getSum_int32_model (l : List Int) :
    (getSum l).1 % 4294967296 = l.sum % 4294967296 ∧
    -2147483648 ≤ (getSum l).1 ∧ (getSum l).1 < 2147483648 ∧
    ((∀ x ∈ List.scanl (· + ·) 0 l, -2147483648 ≤ x ∧ x < 2147483648) →
      (getSum l).1 = l.sum) := by
  refine ⟨?_, ?_, ?_, fun h => ?_⟩
  · rw [getSum_fst, int32wrap_emod]
  · rw [getSum_fst]; exact int32wrap_lb _
  · rw [getSum_fst]; exact int32wrap_ub _
  · have := foldl_wrapAdd_of_inRange l 0 h
    simpa [getSum] using this

/-- C10 witness: the model applied to the history 5, 2, 8, 1, -3, whose
partial sums all fit in the signed 32-bit range. -/
theorem getSum_int32_model_witness :
    (getSum [5, 2, 8, 1, -3]).1 = ([5, 2, 8, 1, -3] : List Int).sum :=
  (getSum_int32_model [5, 2, 8, 1, -3]).2.2.2 (by decide)

/-- C10 counterexample to the "only when" direction: for the history
2147483647, 1, -2 the second partial sum 2147483648 leaves the signed 32-bit
range, yet `getSum` still equals the true arithmetic sum 2147483646. -/
theorem getSum_partial_overflow_counterexample :
    (getSum [2147483647, 1, -2]).1 = ([2147483647, 1, -2] : List Int).sum ∧
    ¬ (∀ x ∈ List.scanl (· + ·) 0 ([2147483647, 1, -2] : List Int),
        -2147483648 ≤ x ∧ x < 2147483648) := by
  refine ⟨by decide, ?_⟩
  intro h
  have := (h 2147483648 (by decide)).2
  norm_num at this
